import Mathlib

/-
Verification of the rsdtypes arbitrary-precision integer core.

Shallow embedding conventions:
  * a Word is a natural number below 2 ^ w, where w is the word width in bits;
    the kernels are stated for an arbitrary width w, matching the generic
    Word type of the source;
  * word slices are lists of naturals, least significant limb first, with
    numeric value given by val;
  * strings are embedded as their ASCII byte lists (byte 48 is the zero
    digit, 43 the plus sign, 45 the minus sign);
  * fallible operations return an Outcome: ok, a returned error, or panic
    (index out of bounds, radix abort).
Functions whose Rust source file is part of the repository are translated
from that source; functions of the repository that only exist behind the
crate boundary of the provided files are modelled from the specification
and carry a doc comment starting with: Modelled from the spec.
-/

namespace Rsdtypes

/-- Numeric value of a word slice in base 2 ^ w, least significant limb
first: val w [x0, x1, ...] = x0 + 2 ^ w * x1 + ... -/
def val (w : Nat) : List Nat → Nat
  | [] => 0
  | x :: xs => x + 2 ^ w * val w xs

theorem val_nil (w : Nat) : val w [] = 0 := rfl

theorem val_cons (w x : Nat) (xs : List Nat) :
    val w (x :: xs) = x + 2 ^ w * val w xs := rfl

theorem val_append (w : Nat) (xs ys : List Nat) :
    val w (xs ++ ys) = val w xs + 2 ^ (w * xs.length) * val w ys := by
  induction xs with
  | nil => simp [val]
  | cons x xs ih =>
      simp only [List.cons_append, val_cons, ih, List.length_cons]
      have h1 : w * (xs.length + 1) = w + w * xs.length := by ring
      rw [h1, pow_add]
      ring

theorem val_lt (w : Nat) (xs : List Nat) (h : ∀ x ∈ xs, x < 2 ^ w) :
    val w xs < 2 ^ (w * xs.length) := by
  induction xs with
  | nil => simp [val]
  | cons x xs ih =>
      have hx : x < 2 ^ w := h x (by simp)
      have hxs : val w xs < 2 ^ (w * xs.length) := ih (fun y hy => h y (by simp [hy]))
      have h2 : 2 ^ (w * (x :: xs).length) = 2 ^ w * 2 ^ (w * xs.length) := by
        rw [List.length_cons]
        have h3 : w * (xs.length + 1) = w + w * xs.length := by ring
        rw [h3, pow_add]
      rw [val_cons, h2]
      have h4 : val w xs + 1 ≤ 2 ^ (w * xs.length) := hxs
      have key : 2 ^ w * (val w xs + 1) ≤ 2 ^ w * 2 ^ (w * xs.length) :=
        Nat.mul_le_mul_left (2 ^ w) h4
      rw [Nat.mul_add, Nat.mul_one] at key
      omega

theorem val_take_drop (w n : Nat) (xs : List Nat) (h : n ≤ xs.length) :
    val w xs = val w (xs.take n) + 2 ^ (w * n) * val w (xs.drop n) := by
  conv_lhs => rw [← List.take_append_drop n xs]
  rw [val_append, List.length_take, Nat.min_eq_left h]

/-! Buffer and UBig data model, from src/ubig.rs; the Buffer type itself
(buffer.rs) is behind the crate boundary of the provided files, so its
capacity policy is modelled from the specification. Only the word content
of a Buffer carries numeric meaning; capacity records the allocation. -/

/-- Modelled from the spec: Buffer owns a heap allocation of Words; the
model keeps the word list (length = len) and the capacity. -/
structure Buffer where
  words : List Nat
  capacity : Nat
deriving DecidableEq

/-- Modelled from the spec: allocate(n) chooses capacity n + ceil(n / 8) + 2. -/
def default_capacity (n : Nat) : Nat := n + (n + 7) / 8 + 2

/-- Modelled from the spec: the compact bound is approximately
len + max(2, ceil(len / 8)). -/
def max_compact_capacity (len : Nat) : Nat := len + max 2 ((len + 7) / 8)

/-- Modelled from the spec: shrink reallocates to the compact bound when the
capacity exceeds it; the words are unchanged. -/
def Buffer.shrink (b : Buffer) : Buffer :=
  if max_compact_capacity b.words.length < b.capacity then
    ⟨b.words, max_compact_capacity b.words.length⟩
  else b

/-- Modelled from the spec: cloning a Buffer deep-copies the words into a
fresh allocation sized for the current length. -/
def Buffer.clone (b : Buffer) : Buffer :=
  ⟨b.words, default_capacity b.words.length⟩

/-- Modelled from the spec: resizing_clone_from copies the words of src,
reusing the own allocation when its capacity lies in the compact band
around the source length and reallocating otherwise. -/
def Buffer.resizing_clone_from (dst src : Buffer) : Buffer :=
  if src.words.length ≤ dst.capacity ∧
      dst.capacity ≤ max_compact_capacity src.words.length then
    ⟨src.words, dst.capacity⟩
  else
    ⟨src.words, default_capacity src.words.length⟩

/-- Modelled from the spec: Vec-style clone_from reuses the destination
allocation whenever it is large enough. -/
def Buffer.clone_from (dst src : Buffer) : Buffer :=
  if src.words.length ≤ dst.capacity then ⟨src.words, dst.capacity⟩
  else ⟨src.words, default_capacity src.words.length⟩

/-- Internal representation of UBig, from src/ubig.rs: a number that fits
in a single Word is Small, anything else is Large. -/
inductive Repr where
  | Small (word : Nat)
  | Large (buffer : Buffer)
deriving DecidableEq

/-- Unsigned big integer, from src/ubig.rs. -/
structure UBig where
  repr : Repr
deriving DecidableEq

/-- UBig::from_word, from src/ubig.rs. -/
def UBig.from_word (word : Nat) : UBig := ⟨Repr.Small word⟩

/-- UBig::is_zero, from src/ubig.rs. -/
def UBig.is_zero (u : UBig) : Bool :=
  match u.repr with
  | Repr.Small 0 => true
  | _ => false

/-- Discriminates the Small variant. -/
def UBig.isSmall (u : UBig) : Bool :=
  match u.repr with
  | Repr.Small _ => true
  | Repr.Large _ => false

/-- Numeric value of a UBig for word width w. -/
def UBig.value (w : Nat) (u : UBig) : Nat :=
  match u.repr with
  | Repr.Small x => x
  | Repr.Large b => val w b.words

/-- The while-pop loop of impl From Buffer for UBig in src/ubig.rs: pop
while the last limb is zero. trim removes all trailing zero limbs. -/
def trim : List Nat → List Nat
  | [] => []
  | x :: xs =>
    match trim xs with
    | [] => if x = 0 then [] else [x]
    | ys => x :: ys

theorem val_trim_eq_zero (w : Nat) (xs : List Nat) (h : trim xs = []) :
    val w xs = 0 := by
  induction xs with
  | nil => rfl
  | cons x xs ih =>
      rw [val_cons]
      by_cases hx : trim xs = []
      · have hx0 : x = 0 := by
          by_contra hne
          simp [trim, hx, hne] at h
        rw [ih hx, hx0]
        ring
      · exfalso
        simp only [trim] at h
        rcases he : trim xs with _ | ⟨y, ys⟩
        · exact hx he
        · rw [he] at h
          exact List.cons_ne_nil _ _ h

theorem val_trim (w : Nat) (xs : List Nat) : val w (trim xs) = val w xs := by
  induction xs with
  | nil => rfl
  | cons x xs ih =>
      rcases he : trim xs with _ | ⟨y, ys⟩
      · have h0 : val w xs = 0 := val_trim_eq_zero w xs he
        by_cases hx : x = 0
        · simp [trim, he, hx, val_cons, val_nil, h0]
        · simp [trim, he, hx, val_cons, val_nil, h0]
      · have h1 : trim (x :: xs) = x :: trim xs := by
          simp only [trim, he]
        rw [h1, val_cons, val_cons, ih]

theorem trim_mem (xs : List Nat) (x : Nat) (h : x ∈ trim xs) : x ∈ xs := by
  induction xs with
  | nil => simp [trim] at h
  | cons y ys ih =>
      simp only [trim] at h
      rcases he : trim ys with _ | ⟨z, zs⟩
      · rw [he] at h
        by_cases hy : y = 0
        · simp [hy] at h
        · simp [hy] at h
          simp [h]
      · rw [he] at h
        rcases List.mem_cons.mp h with h1 | h2
        · simp [h1]
        · have hx : x ∈ trim ys := by rw [he]; exact h2
          exact List.mem_cons_of_mem y (ih hx)

theorem trim_getLast_ne_zero (xs : List Nat) (h : trim xs ≠ []) :
    (trim xs).getLast? ≠ some 0 := by
  induction xs with
  | nil => simp [trim] at h
  | cons y ys ih =>
      simp only [trim] at h ⊢
      rcases he : trim ys with _ | ⟨z, zs⟩
      · by_cases hy : y = 0
        · rw [he] at h
          simp [hy] at h
        · simp [hy]
      · rw [he] at h
        have hne : trim ys ≠ [] := by rw [he]; exact List.cons_ne_nil _ _
        have hlast := ih hne
        rw [he] at hlast
        show (y :: z :: zs).getLast? ≠ some 0
        rw [List.getLast?_cons_cons]
        exact hlast

theorem val_ge_of_getLast_ne_zero (w : Nat) (xs : List Nat)
    (hne : xs ≠ []) (h : xs.getLast? ≠ some 0) :
    2 ^ (w * (xs.length - 1)) ≤ val w xs := by
  induction xs with
  | nil => exact absurd rfl hne
  | cons x xs ih =>
      rcases xs with _ | ⟨y, ys⟩
      · have hx : x ≠ 0 := by
          intro h0
          exact h (by simp [h0, List.getLast?])
        simp only [List.length_cons, List.length_nil, Nat.zero_add,
          Nat.sub_self, Nat.mul_zero, pow_zero, val_cons, val_nil]
        omega
      · have hlast : (y :: ys).getLast? ≠ some 0 := by
          rw [List.getLast?_cons_cons] at h
          exact h
        have hrec := ih (List.cons_ne_nil _ _) hlast
        rw [val_cons]
        have hlen : (x :: y :: ys).length - 1 = ((y :: ys).length - 1) + 1 := by
          simp
        rw [hlen]
        have hpow : 2 ^ (w * ((y :: ys).length - 1 + 1)) =
            2 ^ w * 2 ^ (w * ((y :: ys).length - 1)) := by
          have h5 : w * ((y :: ys).length - 1 + 1) = w + w * ((y :: ys).length - 1) := by
            ring
          rw [h5, pow_add]
        rw [hpow]
        have := Nat.mul_le_mul_left (2 ^ w) hrec
        omega

/-- Impl From Buffer for UBig, from src/ubig.rs: pop trailing zeros, then
return Small for lengths 0 and 1 and a shrunk Large otherwise. -/
def UBig.fromBuffer (buffer : Buffer) : UBig :=
  match trim buffer.words with
  | [] => UBig.from_word 0
  | [x] => UBig.from_word x
  | _ => ⟨Repr.Large (Buffer.shrink ⟨trim buffer.words, buffer.capacity⟩)⟩

/-- Large values of a normalized UBig have at least two limbs and a
non-zero top limb. -/
def normalized_large (u : UBig) : Prop :=
  match u.repr with
  | Repr.Small _ => True
  | Repr.Large b => 2 ≤ b.words.length ∧ b.words.getLast? ≠ some 0

theorem Buffer.shrink_words (b : Buffer) : (Buffer.shrink b).words = b.words := by
  unfold Buffer.shrink
  split <;> rfl

/-- C2. The Buffer-to-UBig bridge normalizes: trailing zero limbs are
popped, lengths 0 and 1 become Small (0 giving Small 0), any Large result
has at least two limbs and a non-zero top limb, the result is Small exactly
when the value is below one word, and the numeric value is preserved. -/
theorem from_buffer_normalized (w : Nat) (buffer : Buffer)
    (H : ∀ x ∈ buffer.words, x < 2 ^ w) :
    UBig.value w (UBig.fromBuffer buffer) = val w buffer.words
    ∧ ((UBig.fromBuffer buffer).isSmall = true ↔ val w buffer.words < 2 ^ w)
    ∧ normalized_large (UBig.fromBuffer buffer)
    ∧ (trim buffer.words = [] → UBig.fromBuffer buffer = UBig.from_word 0) := by
  have hval : val w (trim buffer.words) = val w buffer.words := val_trim w _
  have hpos : 0 < 2 ^ w := Nat.pos_pow_of_pos w (by norm_num)
  rcases ht : trim buffer.words with _ | ⟨x, _ | ⟨y, ys⟩⟩
  · rw [ht] at hval
    have h0 : val w buffer.words = 0 := by rw [← hval]; rfl
    refine ⟨?_, ?_, ?_, ?_⟩
    · simp [UBig.fromBuffer, ht, UBig.value, UBig.from_word, h0]
    · simp [UBig.fromBuffer, ht, UBig.isSmall, UBig.from_word, h0, hpos]
    · simp [UBig.fromBuffer, ht, normalized_large, UBig.from_word]
    · intro _
      simp [UBig.fromBuffer, ht]
  · rw [ht] at hval
    have hx : x < 2 ^ w := H x (trim_mem _ _ (by rw [ht]; simp))
    have hvx : val w buffer.words = x := by
      rw [← hval, val_cons, val_nil]
      ring
    refine ⟨?_, ?_, ?_, ?_⟩
    · simp [UBig.fromBuffer, ht, UBig.value, UBig.from_word, hvx]
    · simp [UBig.fromBuffer, ht, UBig.isSmall, UBig.from_word, hvx, hx]
    · simp [UBig.fromBuffer, ht, normalized_large, UBig.from_word]
    · intro hc
      exact absurd hc (List.cons_ne_nil _ _)
  · rw [ht] at hval
    have hne : trim buffer.words ≠ [] := by rw [ht]; exact List.cons_ne_nil _ _
    have hlast : (trim buffer.words).getLast? ≠ some 0 :=
      trim_getLast_ne_zero buffer.words hne
    have hge : 2 ^ (w * ((trim buffer.words).length - 1)) ≤ val w (trim buffer.words) :=
      val_ge_of_getLast_ne_zero w _ hne hlast
    have hlen : 2 ≤ (trim buffer.words).length := by rw [ht]; simp
    have hbig : 2 ^ w ≤ val w buffer.words := by
      rw [← val_trim w buffer.words]
      refine le_trans ?_ hge
      exact Nat.pow_le_pow_right (by norm_num) (by
        have : 1 ≤ (trim buffer.words).length - 1 := by omega
        calc w = w * 1 := by ring
          _ ≤ w * ((trim buffer.words).length - 1) := Nat.mul_le_mul_left w this)
    refine ⟨?_, ?_, ?_, ?_⟩
    · simp only [UBig.fromBuffer, ht, UBig.value]
      rw [Buffer.shrink_words]
      rw [← ht] at hval ⊢
      exact hval
    · simp only [UBig.fromBuffer, ht, UBig.isSmall]
      constructor
      · intro hfalse
        exact absurd hfalse (by simp)
      · intro hlt
        omega
    · simp only [UBig.fromBuffer, ht, normalized_large]
      rw [Buffer.shrink_words]
      refine ⟨by simp, ?_⟩
      have hlast2 : (x :: y :: ys).getLast? ≠ some 0 := by rw [← ht]; exact hlast
      exact hlast2
    · intro hc
      exact absurd hc (List.cons_ne_nil _ _)

theorem from_buffer_normalized_witness :
    (∀ x ∈ ([5, 0, 3, 0, 0] : List Nat), x < 2 ^ 4)
    ∧ (UBig.value 4 (UBig.fromBuffer ⟨[5, 0, 3, 0, 0], 9⟩) =
        val 4 ([5, 0, 3, 0, 0] : List Nat)
      ∧ ((UBig.fromBuffer ⟨[5, 0, 3, 0, 0], 9⟩).isSmall = true ↔
          val 4 ([5, 0, 3, 0, 0] : List Nat) < 2 ^ 4)
      ∧ normalized_large (UBig.fromBuffer ⟨[5, 0, 3, 0, 0], 9⟩)
      ∧ (trim ([5, 0, 3, 0, 0] : List Nat) = [] →
          UBig.fromBuffer ⟨[5, 0, 3, 0, 0], 9⟩ = UBig.from_word 0)) :=
  ⟨by decide, from_buffer_normalized 4 ⟨[5, 0, 3, 0, 0], 9⟩ (by decide)⟩

/-! Decimal radix tables, from src/common/arch/generic_64_bit/decimal/mod.rs. -/

/-- CHUNK_SIZE constant of the 64-bit decimal tables. -/
def CHUNK_SIZE : Nat := 16

/-- MAX_TEN_POWER constant of the 64-bit decimal tables. -/
def MAX_TEN_POWER : Nat := 10000000000000000

/-- TEN_POWS table of the 64-bit decimal tables. -/
def TEN_POWS : List Nat :=
  [1, 10, 100, 1000, 10000, 100000, 1000000, 10000000, 100000000,
   1000000000, 10000000000, 100000000000, 1000000000000, 10000000000000,
   100000000000000, 1000000000000000, 10000000000000000]

/-- C3 counterexample. The precomputed block base constant of the decimal
tables is not 10 ^ 19, although 19 is the largest k with 10 ^ k below
2 ^ 64: the constant the source defines is smaller. -/
theorem max_ten_power_ne_ten_pow_19 :
    MAX_TEN_POWER ≠ 10 ^ 19 ∧ 10 ^ 19 < 2 ^ 64 ∧ 2 ^ 64 < 10 ^ 20 := by
  refine ⟨?_, ?_, ?_⟩ <;> norm_num [MAX_TEN_POWER]

/-- C3 amended. The block base constant of the 64-bit decimal tables is
10 ^ 16 = 10 ^ CHUNK_SIZE with CHUNK_SIZE = 16; it fits in a 64-bit Word
but is not the largest power of ten that does, and TEN_POWS tabulates
10 ^ 0 through 10 ^ 16. -/
theorem max_ten_power_eq_ten_pow_16 :
    MAX_TEN_POWER = 10 ^ 16 ∧ CHUNK_SIZE = 16 ∧ MAX_TEN_POWER = 10 ^ CHUNK_SIZE
    ∧ MAX_TEN_POWER < 2 ^ 64
    ∧ TEN_POWS = (List.range 17).map (fun i => 10 ^ i) := by
  refine ⟨by norm_num [MAX_TEN_POWER], rfl, by norm_num [MAX_TEN_POWER, CHUNK_SIZE], ?_, ?_⟩
  · norm_num [MAX_TEN_POWER]
  · rfl

/-! Word primitive add_with_carry, from src/arch/x86/add.rs. In that file
Word is the 32-bit unsigned integer and WORD_BITS is 32 (the sibling
sub_with_borrow carries a const_assert to that effect). -/

/-- Word width of the x86 intrinsic file. -/
def X86_WORD_BITS : Nat := 32

/-- Modelled from the spec: the platform intrinsic _addcarry_u32 (treated by
the spec as an abstract single-word primitive). It forms the full sum
carry + a + b; the low 32 bits are the result and the shifted-out high part
is the carry flag. -/
def addcarry_u32 (carry : Bool) (a b : Nat) : Nat × Nat :=
  let full := a + b + (if carry then 1 else 0)
  (full % 2 ^ X86_WORD_BITS, full / 2 ^ X86_WORD_BITS)

/-- add_with_carry, from src/arch/x86/add.rs: calls the intrinsic and
reports the carry flag as a Bool. -/
def add_with_carry (a b : Nat) (carry : Bool) : Nat × Bool :=
  let r := addcarry_u32 carry a b
  (r.1, decide (r.2 ≠ 0))

/-- C9. For Words a and b and a carry bit, add_with_carry is total and
deterministic (it is a function) and returns the full sum reduced modulo
2 ^ WORD_BITS together with a carry-out bit that is set exactly when the
full sum reaches 2 ^ WORD_BITS. -/
theorem add_with_carry_correct (a b : Nat) (carry : Bool)
    (ha : a < 2 ^ X86_WORD_BITS) (hb : b < 2 ^ X86_WORD_BITS) :
    add_with_carry a b carry =
      ((a + b + (if carry then 1 else 0)) % 2 ^ X86_WORD_BITS,
       decide (2 ^ X86_WORD_BITS ≤ a + b + (if carry then 1 else 0))) := by
  unfold add_with_carry addcarry_u32
  refine Prod.ext rfl ?_
  simp only [decide_eq_decide]
  rw [Ne, Nat.div_eq_zero_iff (Nat.pos_pow_of_pos _ (by norm_num))]
  omega

theorem add_with_carry_correct_witness :
    (4294967295 < 2 ^ X86_WORD_BITS ∧ 7 < 2 ^ X86_WORD_BITS)
    ∧ add_with_carry 4294967295 7 true =
      ((4294967295 + 7 + 1) % 2 ^ X86_WORD_BITS,
       decide (2 ^ X86_WORD_BITS ≤ 4294967295 + 7 + 1)) :=
  ⟨by norm_num [X86_WORD_BITS],
   add_with_carry_correct 4294967295 7 true (by norm_num [X86_WORD_BITS])
     (by norm_num [X86_WORD_BITS])⟩

/-! Clone for UBig, from src/ubig.rs (resizing_clone_from variant) and
src/memory.rs (Buffer clone_from variant). Equality of UBig values follows
the derived Rust equality: representations match and Large buffers compare
by their words, with capacity ignored. -/

/-- Impl Clone for UBig, fn clone, from src/ubig.rs and src/memory.rs:
Small is copied, Large deep-copies the buffer. -/
def UBig.clone (u : UBig) : UBig :=
  match u.repr with
  | Repr.Small x => ⟨Repr.Small x⟩
  | Repr.Large buffer => ⟨Repr.Large (Buffer.clone buffer)⟩

/-- Impl Clone for UBig, fn clone_from, from src/ubig.rs: when both sides
are Large the destination buffer is reused through resizing_clone_from,
otherwise the source is cloned. -/
def UBig.clone_from (self source : UBig) : UBig :=
  match self.repr, source.repr with
  | Repr.Large buffer, Repr.Large source_buffer =>
      ⟨Repr.Large (Buffer.resizing_clone_from buffer source_buffer)⟩
  | _, _ => source.clone

/-- Impl Clone for UBig, fn clone_from, from src/memory.rs: identical
except that the Large-Large case goes through the Buffer clone_from. -/
def UBig.clone_from_mem (self other : UBig) : UBig :=
  match self.repr, other.repr with
  | Repr.Large large, Repr.Large other_large =>
      ⟨Repr.Large (Buffer.clone_from large other_large)⟩
  | _, _ => other.clone

/-- Rust-derived equality of UBig: same variant, and for Large the same
word content (capacity is not part of equality). -/
def UBig.eqv (u v : UBig) : Prop :=
  match u.repr, v.repr with
  | Repr.Small x, Repr.Small y => x = y
  | Repr.Large b1, Repr.Large b2 => b1.words = b2.words
  | _, _ => False

/-- C10. For every pair of UBig values, in all four combinations of Small
and Large representations, clone returns an equal value, and clone_from
(in both the src/ubig.rs and the src/memory.rs version) leaves the
destination equal to the source: the buffer-reuse optimization never
changes the resulting value. -/
theorem clone_preserves_value (u v : UBig) :
    UBig.eqv (UBig.clone u) u
    ∧ UBig.eqv (UBig.clone_from v u) u
    ∧ UBig.eqv (UBig.clone_from_mem v u) u := by
  obtain ⟨ru⟩ := u
  obtain ⟨rv⟩ := v
  rcases ru with x | b <;> rcases rv with y | c
  · exact ⟨rfl, rfl, rfl⟩
  · exact ⟨rfl, rfl, rfl⟩
  · refine ⟨rfl, ?_, ?_⟩ <;>
      simp [UBig.clone_from, UBig.clone_from_mem, UBig.clone, UBig.eqv, Buffer.clone]
  · refine ⟨?_, ?_, ?_⟩
    · simp [UBig.clone, UBig.eqv, Buffer.clone]
    · simp only [UBig.clone_from, UBig.eqv, Buffer.resizing_clone_from]
      split <;> rfl
    · simp only [UBig.clone_from_mem, UBig.eqv, Buffer.clone_from]
      split <;> rfl

/-! Parser model, from src/ibig/parse/mod.rs. Strings are embedded as
ASCII byte lists. The leaf parsers (power_two, non_power_two, the radix
module and the error type) live behind the crate boundary of the provided
files and are modelled from the specification. Panics (out-of-bounds
indexing, the radix abort contract) are a distinct Outcome. -/

/-- Modelled from the spec: the parse error taxonomy, NoDigits for an empty
digit sequence and InvalidDigit for a byte outside the digit set. -/
inductive ParseError where
  | NoDigits
  | InvalidDigit
deriving DecidableEq

/-- Result of running a fallible operation: a value, a returned error, or a
panic (out-of-bounds index or the program-abort contract). -/
inductive Outcome (α : Type) where
  | panic
  | err (e : ParseError)
  | ok (v : α)
deriving DecidableEq

/-- Word width used by the UBig-level parser model; the spec picks one
width uniformly and the decimal tables of the source are 64-bit. -/
def WORD_BITS : Nat := 64

/-- Modelled from the spec: radix validity, radix in [2, 36]. -/
def is_radix_valid (radix : Nat) : Bool :=
  decide (2 ≤ radix) && decide (radix ≤ 36)

/-- Modelled from the spec: dispatch on radix.is_power_of_two, one set bit. -/
def is_pow_two (radix : Nat) : Bool :=
  decide (radix ≠ 0) && decide (radix &&& (radix - 1) = 0)

/-- Modelled from the spec: digit value of an ASCII byte, bytes 48-57 give
0-9, bytes 97-122 and 65-90 give 10-35, anything else or a value at or
above the radix is rejected. -/
def digit_from_ascii_byte (byte radix : Nat) : Option Nat :=
  let d : Option Nat :=
    if 48 ≤ byte ∧ byte ≤ 57 then some (byte - 48)
    else if 97 ≤ byte ∧ byte ≤ 122 then some (byte - 87)
    else if 65 ≤ byte ∧ byte ≤ 90 then some (byte - 55)
    else none
  match d with
  | some v => if v < radix then some v else none
  | none => none

/-- Modelled from the spec: the numeric value of a digit string, folded as
acc * radix + digit, rejecting the first invalid digit. -/
def parse_digits_value (src : List Nat) (radix : Nat) : Except ParseError Nat :=
  List.foldlM
    (fun acc b =>
      match digit_from_ascii_byte b radix with
      | some d => Except.ok (acc * radix + d)
      | none => Except.error ParseError.InvalidDigit)
    0 src

/-- Base 2 ^ w limb decomposition of a natural number, least significant
limb first, fuel-driven so that it evaluates by kernel reduction. -/
def natToLimbsAux (w : Nat) : Nat → Nat → List Nat
  | _, 0 => []
  | n, fuel + 1 => if n = 0 then [] else n % 2 ^ w :: natToLimbsAux w (n / 2 ^ w) fuel

/-- Base 2 ^ w limbs of n. -/
def natToLimbs (w n : Nat) : List Nat := natToLimbsAux w n n

/-- Modelled from the spec: the power-of-two parser packs the digit bits
into limbs from the least-significant end and hands the buffer to the
normalizing constructor; an input left empty by zero-stripping produces
the UBig zero. The packing loop yields exactly the base 2 ^ WORD_BITS
limbs of the digit value. -/
def power_two_parse (src : List Nat) (radix : Nat) : Outcome UBig :=
  if src = [] then Outcome.ok (UBig.from_word 0)
  else
    match parse_digits_value src radix with
    | Except.ok n =>
        Outcome.ok (UBig.fromBuffer
          ⟨natToLimbs WORD_BITS n, default_capacity (natToLimbs WORD_BITS n).length⟩)
    | Except.error e => Outcome.err e

/-- Modelled from the spec: the general-radix parser accumulates blocks of
max_digits_per_word digits against the block base and hands the buffer to
the normalizing constructor; the block accumulation yields exactly the
base 2 ^ WORD_BITS limbs of the digit value, and an input left empty by
zero-stripping produces the UBig zero. -/
def non_power_two_parse (src : List Nat) (radix : Nat) : Outcome UBig :=
  if src = [] then Outcome.ok (UBig.from_word 0)
  else
    match parse_digits_value src radix with
    | Except.ok n =>
        Outcome.ok (UBig.fromBuffer
          ⟨natToLimbs WORD_BITS n, default_capacity (natToLimbs WORD_BITS n).length⟩)
    | Except.error e => Outcome.err e

/-- Modelled from the spec: byte-slice variant of the power-of-two parser
(parse2 in the source), same algorithm over the byte slice. -/
def power_two_parse2 (src : List Nat) (radix : Nat) : Outcome UBig :=
  power_two_parse src radix

/-- Modelled from the spec: byte-slice variant of the general-radix parser
(parse2 in the source), same algorithm over the byte slice. -/
def non_power_two_parse2 (src : List Nat) (radix : Nat) : Outcome UBig :=
  non_power_two_parse src radix

/-- UBig::from_str_radix_no_sign, from src/ibig/parse/mod.rs: NoDigits on
empty input, strip leading zero bytes, dispatch on power-of-two. -/
def UBig.from_str_radix_no_sign (src : List Nat) (radix : Nat) : Outcome UBig :=
  if src = [] then Outcome.err ParseError.NoDigits
  else if is_pow_two radix then
    power_two_parse (src.dropWhile (fun b => b == 48)) radix
  else
    non_power_two_parse (src.dropWhile (fun b => b == 48)) radix

/-- UBig::from_str_radix, from src/ibig/parse/mod.rs: abort on an invalid
radix, strip one optional leading plus, parse unsigned. -/
def UBig.from_str_radix (src : List Nat) (radix : Nat) : Outcome UBig :=
  if is_radix_valid radix then
    UBig.from_str_radix_no_sign (if src.head? = some 43 then src.tail else src) radix
  else Outcome.panic

/-- UBig::from_str_with_radix_prefix_no_sign, from src/ibig/parse/mod.rs:
0b, 0o, 0x select radix 2, 8, 16, otherwise radix 10 (bytes 98, 111, 120
are b, o, x). -/
def UBig.from_str_with_radix_pfx_no_sign (src : List Nat) : Outcome UBig :=
  match src with
  | 48 :: 98 :: rest => UBig.from_str_radix_no_sign rest 2
  | 48 :: 111 :: rest => UBig.from_str_radix_no_sign rest 8
  | 48 :: 120 :: rest => UBig.from_str_radix_no_sign rest 16
  | _ => UBig.from_str_radix_no_sign src 10

/-- UBig::from_str_with_radix_prefix, from src/ibig/parse/mod.rs. -/
def UBig.from_str_with_radix_pfx (src : List Nat) : Outcome UBig :=
  UBig.from_str_with_radix_pfx_no_sign (if src.head? = some 43 then src.tail else src)

/-- The while loop of UBig::from_bytes_radix_no_sign: advance numindex over
zero bytes; running past the end of the slice is an index panic. Returns
the suffix starting at the first non-zero byte. -/
def skip_zeros : List Nat → Option (List Nat)
  | [] => none
  | b :: rest => if b = 48 then skip_zeros rest else some (b :: rest)

/-- UBig::from_bytes_radix_no_sign, from src/ibig/parse/mod.rs: the
emptiness test is on the whole byte slice, then the zero-skip loop indexes
from numindex (panicking past the end), then dispatch on power-of-two. -/
def UBig.from_bytes_radix_no_sign (strbytes : List Nat) (numindex : Nat)
    (radix : Nat) : Outcome UBig :=
  if strbytes = [] then Outcome.err ParseError.NoDigits
  else
    match skip_zeros (strbytes.drop numindex) with
    | none => Outcome.panic
    | some rest =>
        if is_pow_two radix then power_two_parse2 rest radix
        else non_power_two_parse2 rest radix

/-- Sign of a number, matching crate::sign::Sign of the source. -/
inductive Sign where
  | Positive
  | Negative
deriving DecidableEq

/-- Signed big integer: a sign and a UBig magnitude. -/
structure IBig where
  sign : Sign
  magnitude : UBig
deriving DecidableEq

/-- Modelled from the spec: IBig::from_sign_magnitude canonicalizes the
zero magnitude to a positive sign. -/
def IBig.from_sign_magnitude (sign : Sign) (magnitude : UBig) : IBig :=
  if magnitude.is_zero then ⟨Sign.Positive, magnitude⟩ else ⟨sign, magnitude⟩

/-- Sign as an integer factor. -/
def signValue : Sign → Int
  | Sign.Positive => 1
  | Sign.Negative => -1

/-- Numeric value of an IBig for word width w. -/
def IBig.value (w : Nat) (i : IBig) : Int :=
  signValue i.sign * (UBig.value w i.magnitude : Int)

/-- IBig::from_str_radix, from src/ibig/parse/mod.rs (the byte-based
entry): abort on an invalid radix, inspect strbytes[0] for a sign --- an
out-of-bounds panic on empty input --- then parse the magnitude from
numindex and attach the sign. -/
def IBig.from_str_radix (src : List Nat) (radix : Nat) : Outcome IBig :=
  if is_radix_valid radix then
    match src with
    | [] => Outcome.panic
    | b :: _ =>
      match UBig.from_bytes_radix_no_sign src (if b = 45 ∨ b = 43 then 1 else 0) radix with
      | Outcome.panic => Outcome.panic
      | Outcome.err e => Outcome.err e
      | Outcome.ok mag =>
          Outcome.ok (IBig.from_sign_magnitude
            (if b = 45 then Sign.Negative else Sign.Positive) mag)
  else Outcome.panic

/-- IBig::from_str_with_radix_prefix, from src/ibig/parse/mod.rs: strip
one optional sign, parse the prefixed magnitude, attach the sign. -/
def IBig.from_str_with_radix_pfx (src : List Nat) : Outcome IBig :=
  match UBig.from_str_with_radix_pfx_no_sign
      (if src.head? = some 45 ∨ src.head? = some 43 then src.tail else src) with
  | Outcome.panic => Outcome.panic
  | Outcome.err e => Outcome.err e
  | Outcome.ok mag =>
      Outcome.ok (IBig.from_sign_magnitude
        (if src.head? = some 45 then Sign.Negative else Sign.Positive) mag)

theorem digit_byte_not_sign (b r : Nat)
    (h : (digit_from_ascii_byte b r).isSome = true) : b ≠ 43 ∧ b ≠ 45 := by
  constructor <;> rintro rfl <;> simp [digit_from_ascii_byte] at h

theorem dropWhile_zero_replicate (k : Nat) (s : List Nat) :
    (List.replicate k 48 ++ s).dropWhile (fun b => b == 48)
      = s.dropWhile (fun b => b == 48) := by
  induction k with
  | zero => simp
  | succ k ih =>
      rw [List.replicate_succ, List.cons_append, List.dropWhile_cons]
      simp [ih]

theorem skip_zeros_replicate (k : Nat) (s : List Nat) :
    skip_zeros (List.replicate k 48 ++ s) = skip_zeros s := by
  induction k with
  | zero => simp
  | succ k ih =>
      rw [List.replicate_succ, List.cons_append]
      simp [skip_zeros, ih]

/-- C4. The empty input: the UBig entry points and the prefixed IBig entry
return NoDigits, but the byte-based IBig::from_str_radix reads strbytes[0]
before any emptiness test and panics with an out-of-bounds index instead
of returning NoDigits. -/
theorem parse_empty_input :
    UBig.from_str_radix [] 10 = Outcome.err ParseError.NoDigits
    ∧ UBig.from_str_with_radix_pfx [] = Outcome.err ParseError.NoDigits
    ∧ IBig.from_str_with_radix_pfx [] = Outcome.err ParseError.NoDigits
    ∧ IBig.from_str_radix [] 10 = Outcome.panic := by
  refine ⟨rfl, rfl, rfl, rfl⟩

/-- C6. A non-empty all-zero input parses to the UBig zero, represented as
Small 0, for every radix in [2, 36]. -/
theorem parse_all_zeros (r k : Nat) (hr1 : 2 ≤ r) (hr2 : r ≤ 36) (hk : 1 ≤ k) :
    UBig.from_str_radix (List.replicate k 48) r = Outcome.ok ⟨Repr.Small 0⟩ := by
  have hvalid : is_radix_valid r = true := by
    simp only [is_radix_valid, Bool.and_eq_true, decide_eq_true_eq]
    omega
  rcases k with _ | k
  · omega
  unfold UBig.from_str_radix
  rw [if_pos hvalid]
  have h1 : (List.replicate (k + 1) 48).head? = some 48 := by
    rw [List.replicate_succ]
    rfl
  rw [h1, if_neg (by simp)]
  unfold UBig.from_str_radix_no_sign
  rw [if_neg (by simp)]
  have h2 : (List.replicate (k + 1) 48).dropWhile (fun b => b == 48) = [] := by
    have h3 := dropWhile_zero_replicate (k + 1) []
    rw [List.append_nil] at h3
    rw [h3]
    rfl
  rw [h2]
  rcases hp : is_pow_two r
  · rw [if_neg (by simp [hp])]
    rfl
  · rw [if_pos (by simp [hp])]
    rfl

theorem parse_all_zeros_witness :
    (2 ≤ 10 ∧ 10 ≤ 36 ∧ 1 ≤ 5)
    ∧ UBig.from_str_radix (List.replicate 5 48) 10 = Outcome.ok ⟨Repr.Small 0⟩ :=
  ⟨by omega, parse_all_zeros 10 5 (by omega) (by omega) (by omega)⟩

/-- C5. Prepending any number of zero digits to a valid digit string does
not change the outcome of either fixed-radix entry point, the str-based
UBig::from_str_radix and the byte-based IBig::from_str_radix. -/
theorem parse_leading_zero_invariance (r k : Nat) (s : List Nat)
    (hr1 : 2 ≤ r) (hr2 : r ≤ 36) (hs : s ≠ [])
    (hdig : ∀ b ∈ s, (digit_from_ascii_byte b r).isSome = true) :
    UBig.from_str_radix (List.replicate k 48 ++ s) r = UBig.from_str_radix s r
    ∧ IBig.from_str_radix (List.replicate k 48 ++ s) r = IBig.from_str_radix s r := by
  have hvalid : is_radix_valid r = true := by
    simp only [is_radix_valid, Bool.and_eq_true, decide_eq_true_eq]
    omega
  rcases s with _ | ⟨b, t⟩
  · exact absurd rfl hs
  obtain ⟨hb43, hb45⟩ := digit_byte_not_sign b r (hdig b (by simp))
  rcases k with _ | k
  · simp
  have hL : List.replicate (k + 1) 48 ++ b :: t
      = 48 :: (List.replicate k 48 ++ b :: t) := by
    rw [List.replicate_succ]
    rfl
  constructor
  · unfold UBig.from_str_radix
    rw [if_pos hvalid, if_pos hvalid, hL]
    rw [if_neg (by simp), if_neg (by simp [hb43])]
    have hdw : (48 :: (List.replicate k 48 ++ b :: t)).dropWhile (fun b => b == 48)
        = (b :: t).dropWhile (fun b => b == 48) := by
      have h4 := dropWhile_zero_replicate (k + 1) (b :: t)
      rw [hL] at h4
      exact h4
    unfold UBig.from_str_radix_no_sign
    rw [if_neg (show ¬(48 :: (List.replicate k 48 ++ b :: t)) = [] by simp),
      if_neg (show ¬(b :: t) = [] by simp), hdw]
  · have hbytes : UBig.from_bytes_radix_no_sign
        (48 :: (List.replicate k 48 ++ b :: t)) 0 r
        = UBig.from_bytes_radix_no_sign (b :: t) 0 r := by
      unfold UBig.from_bytes_radix_no_sign
      rw [if_neg (by simp), if_neg (by simp)]
      rw [List.drop_zero, List.drop_zero]
      have hsz : skip_zeros (48 :: (List.replicate k 48 ++ b :: t))
          = skip_zeros (b :: t) := by
        have h5 := skip_zeros_replicate (k + 1) (b :: t)
        rw [hL] at h5
        exact h5
      rw [hsz]
    unfold IBig.from_str_radix
    rw [if_pos hvalid, if_pos hvalid, hL]
    show (match UBig.from_bytes_radix_no_sign (48 :: (List.replicate k 48 ++ b :: t))
            (if (48 : Nat) = 45 ∨ (48 : Nat) = 43 then 1 else 0) r with
          | Outcome.panic => Outcome.panic
          | Outcome.err e => Outcome.err e
          | Outcome.ok mag =>
              Outcome.ok (IBig.from_sign_magnitude
                (if (48 : Nat) = 45 then Sign.Negative else Sign.Positive) mag))
        = (match UBig.from_bytes_radix_no_sign (b :: t)
            (if b = 45 ∨ b = 43 then 1 else 0) r with
          | Outcome.panic => Outcome.panic
          | Outcome.err e => Outcome.err e
          | Outcome.ok mag =>
              Outcome.ok (IBig.from_sign_magnitude
                (if b = 45 then Sign.Negative else Sign.Positive) mag))
    rw [if_neg (show ¬((48 : Nat) = 45 ∨ (48 : Nat) = 43) by simp),
      if_neg (show ¬((48 : Nat) = 45) by simp),
      if_neg (show ¬(b = 45 ∨ b = 43) by push_neg; exact ⟨hb45, hb43⟩),
      if_neg hb45, hbytes]

theorem parse_leading_zero_invariance_witness :
    (2 ≤ 10 ∧ 10 ≤ 36 ∧ ([49] : List Nat) ≠ []
      ∧ ∀ b ∈ ([49] : List Nat), (digit_from_ascii_byte b 10).isSome = true)
    ∧ (UBig.from_str_radix (List.replicate 2 48 ++ [49]) 10
        = UBig.from_str_radix [49] 10
      ∧ IBig.from_str_radix (List.replicate 2 48 ++ [49]) 10
        = IBig.from_str_radix [49] 10) :=
  ⟨by refine ⟨by omega, by omega, by simp, ?_⟩; decide,
   parse_leading_zero_invariance 10 2 [49] (by omega) (by omega) (by simp) (by decide)⟩

theorem ubig_value_of_is_zero (w : Nat) (u : UBig) (h : u.is_zero = true) :
    UBig.value w u = 0 := by
  obtain ⟨r⟩ := u
  rcases r with x | b
  · rcases x with _ | x
    · rfl
    · simp [UBig.is_zero] at h
  · simp [UBig.is_zero] at h

theorem from_sign_magnitude_neg_value (w : Nat) (mag : UBig) :
    IBig.value w (IBig.from_sign_magnitude Sign.Negative mag)
      = - IBig.value w (IBig.from_sign_magnitude Sign.Positive mag) := by
  unfold IBig.from_sign_magnitude
  by_cases hz : mag.is_zero = true
  · rw [if_pos hz, if_pos hz]
    have h0 := ubig_value_of_is_zero w mag hz
    simp [IBig.value, signValue, h0]
  · rw [if_neg hz, if_neg hz]
    simp only [IBig.value, signValue]
    ring

/-- Numeric value carried by an IBig parse outcome, none for an error or a
panic. -/
def outcome_ibig_value (w : Nat) : Outcome IBig → Option Int
  | Outcome.ok v => some (IBig.value w v)
  | Outcome.err _ => none
  | Outcome.panic => none

theorem ibig_from_str_radix_cons (b : Nat) (t : List Nat) (r : Nat)
    (hvalid : is_radix_valid r = true) :
    IBig.from_str_radix (b :: t) r
      = match UBig.from_bytes_radix_no_sign (b :: t)
          (if b = 45 ∨ b = 43 then 1 else 0) r with
        | Outcome.panic => Outcome.panic
        | Outcome.err e => Outcome.err e
        | Outcome.ok mag =>
            Outcome.ok (IBig.from_sign_magnitude
              (if b = 45 then Sign.Negative else Sign.Positive) mag) := by
  unfold IBig.from_str_radix
  rw [if_pos hvalid]

/-- C7. For a digit string s that the byte-based IBig entry parses
successfully, a prepended minus byte yields the negated value and a
prepended plus byte yields the identical result. -/
theorem parse_sign (r : Nat) (s : List Nat) (v : IBig)
    (hr1 : 2 ≤ r) (hr2 : r ≤ 36)
    (hdig : ∀ b ∈ s, (digit_from_ascii_byte b r).isSome = true)
    (hok : IBig.from_str_radix s r = Outcome.ok v) :
    IBig.from_str_radix (43 :: s) r = Outcome.ok v
    ∧ outcome_ibig_value WORD_BITS (IBig.from_str_radix (45 :: s) r)
        = some (- IBig.value WORD_BITS v) := by
  have hvalid : is_radix_valid r = true := by
    simp only [is_radix_valid, Bool.and_eq_true, decide_eq_true_eq]
    omega
  rcases s with _ | ⟨b, t⟩
  · rw [show IBig.from_str_radix [] r = Outcome.panic by
      unfold IBig.from_str_radix
      rw [if_pos hvalid]] at hok
    exact absurd hok (by simp)
  obtain ⟨hb43, hb45⟩ := digit_byte_not_sign b r (hdig b (by simp))
  rw [ibig_from_str_radix_cons b t r hvalid,
    if_neg (show ¬(b = 45 ∨ b = 43) by push_neg; exact ⟨hb45, hb43⟩),
    if_neg hb45] at hok
  rcases hfb : UBig.from_bytes_radix_no_sign (b :: t) 0 r with _ | e | mag
  · rw [hfb] at hok
    exact absurd hok (by simp)
  · rw [hfb] at hok
    exact absurd hok (by simp)
  rw [hfb] at hok
  have hv : v = IBig.from_sign_magnitude Sign.Positive mag := by
    have h6 : Outcome.ok (α := IBig) (IBig.from_sign_magnitude Sign.Positive mag)
        = Outcome.ok v := hok
    simp only [Outcome.ok.injEq] at h6
    exact h6.symm
  have hbytes1 : UBig.from_bytes_radix_no_sign (43 :: b :: t) 1 r
      = UBig.from_bytes_radix_no_sign (b :: t) 0 r := by
    unfold UBig.from_bytes_radix_no_sign
    rw [if_neg (by simp), if_neg (by simp)]
    rfl
  have hbytes2 : UBig.from_bytes_radix_no_sign (45 :: b :: t) 1 r
      = UBig.from_bytes_radix_no_sign (b :: t) 0 r := by
    unfold UBig.from_bytes_radix_no_sign
    rw [if_neg (by simp), if_neg (by simp)]
    rfl
  constructor
  · rw [ibig_from_str_radix_cons 43 (b :: t) r hvalid,
      if_pos (show (43 : Nat) = 45 ∨ (43 : Nat) = 43 by right; rfl),
      if_neg (show ¬((43 : Nat) = 45) by simp), hbytes1, hfb, hv]
  · rw [ibig_from_str_radix_cons 45 (b :: t) r hvalid,
      if_pos (show (45 : Nat) = 45 ∨ (45 : Nat) = 43 by left; rfl),
      if_pos (show (45 : Nat) = 45 from rfl), hbytes2, hfb, hv]
    show some (IBig.value WORD_BITS (IBig.from_sign_magnitude Sign.Negative mag))
      = some (- IBig.value WORD_BITS (IBig.from_sign_magnitude Sign.Positive mag))
    rw [from_sign_magnitude_neg_value]

theorem parse_sign_witness :
    (2 ≤ 10 ∧ 10 ≤ 36
      ∧ (∀ b ∈ ([49] : List Nat), (digit_from_ascii_byte b 10).isSome = true)
      ∧ IBig.from_str_radix [49] 10
          = Outcome.ok ⟨Sign.Positive, ⟨Repr.Small 1⟩⟩)
    ∧ (IBig.from_str_radix (43 :: [49]) 10
          = Outcome.ok ⟨Sign.Positive, ⟨Repr.Small 1⟩⟩
      ∧ outcome_ibig_value WORD_BITS (IBig.from_str_radix (45 :: [49]) 10)
          = some (- IBig.value WORD_BITS ⟨Sign.Positive, ⟨Repr.Small 1⟩⟩)) :=
  ⟨⟨by omega, by omega, by decide, by decide⟩,
   parse_sign 10 [49] ⟨Sign.Positive, ⟨Repr.Small 1⟩⟩ (by omega) (by omega)
     (by decide) (by decide)⟩

/-! Simple (schoolbook) multiplication, from src/mul/simple.rs. The word
kernels it calls (add::add_signed_word_in_place, mul::add_mul_word_in_place,
mul::sub_mul_word_in_place) live behind the crate boundary of the provided
files and are modelled from the specification (4.2, 4.3); since the chunk
routine hands the kernel the whole tail slice c[i..] and sums the returned
carries at the top, the kernel model propagates its carry word through the
tail of the provided slice and returns the carry out of the top, the one
reading under which the chunk accumulation is numerically meaningful. -/

/-- Modelled from the spec: add_signed_word_in_place propagates a signed
carry through the slice limb by limb and returns the residual signed word
that did not fit (0 unless the slice was too short). Each limb becomes the
Euclidean remainder of limb + carry by 2 ^ w and the carry the quotient. -/
def propagate_carry (w : Nat) : List Nat → Int → List Nat × Int
  | [], v => ([], v)
  | x :: c, v =>
    ((((x : Int) + v).emod (2 ^ w)).toNat ::
        (propagate_carry w c (((x : Int) + v).ediv (2 ^ w))).1,
     (propagate_carry w c (((x : Int) + v).ediv (2 ^ w))).2)

/-- Modelled from the spec: the shared inner row of the multiply-word
kernels, c += sg * m * a limb by limb with a signed carry (sg = 1 for the
adding kernel, sg = -1 for the subtracting kernel), followed by carry
propagation through the remaining limbs of c. Returns the updated slice
and the signed carry out of the top of c. -/
def mul_row (w : Nat) (sg : Int) (m : Nat) : List Nat → List Nat → Int → List Nat × Int
  | c, [], k => propagate_carry w c k
  | [], _ :: _, k => ([], k)
  | x :: c, y :: a, k =>
    ((((x : Int) + k + sg * ((m * y : Nat) : Int)).emod (2 ^ w)).toNat ::
        (mul_row w sg m c a (((x : Int) + k + sg * ((m * y : Nat) : Int)).ediv (2 ^ w))).1,
     (mul_row w sg m c a (((x : Int) + k + sg * ((m * y : Nat) : Int)).ediv (2 ^ w))).2)

/-- Modelled from the spec: add_mul_word_in_place, c += m * a over the
first a.len limbs with the carry word propagated through the rest of c;
returns the carry out of the top of c. -/
def add_mul_word_in_place (w : Nat) (c : List Nat) (m : Nat) (a : List Nat) :
    List Nat × Nat :=
  ((mul_row w 1 m c a 0).1, (mul_row w 1 m c a 0).2.toNat)

/-- Modelled from the spec: sub_mul_word_in_place, c -= m * a over the
first a.len limbs with the borrow word propagated through the rest of c;
returns the borrow out of the top of c. -/
def sub_mul_word_in_place (w : Nat) (c : List Nat) (m : Nat) (a : List Nat) :
    List Nat × Nat :=
  ((mul_row w (-1) m c a 0).1, (-(mul_row w (-1) m c a 0).2).toNat)

/-- CHUNK_LEN, from src/mul/simple.rs. -/
def CHUNK_LEN : Nat := 1024

/-- MAX_SMALLER_LEN, from src/mul/simple.rs. -/
def MAX_SMALLER_LEN : Nat := CHUNK_LEN

/-- The loop of add_mul_chunk from src/mul/simple.rs: for each limb m of b
in ascending order, c[i..] += m * a, accumulating the returned carries.
The recursion peels the first limb of b and of c. -/
def add_mul_chunk_go (w : Nat) (a : List Nat) : List Nat → List Nat → Nat → List Nat × Nat
  | c, [], carry => (c, carry)
  | c, m :: b, carry =>
    ((add_mul_word_in_place w c m a).1.take 1 ++
        (add_mul_chunk_go w a ((add_mul_word_in_place w c m a).1.drop 1) b
          (carry + (add_mul_word_in_place w c m a).2)).1,
     (add_mul_chunk_go w a ((add_mul_word_in_place w c m a).1.drop 1) b
        (carry + (add_mul_word_in_place w c m a).2)).2)

/-- The loop of sub_mul_chunk from src/mul/simple.rs. -/
def sub_mul_chunk_go (w : Nat) (a : List Nat) : List Nat → List Nat → Nat → List Nat × Nat
  | c, [], borrow => (c, borrow)
  | c, m :: b, borrow =>
    ((sub_mul_word_in_place w c m a).1.take 1 ++
        (sub_mul_chunk_go w a ((sub_mul_word_in_place w c m a).1.drop 1) b
          (borrow + (sub_mul_word_in_place w c m a).2)).1,
     (sub_mul_chunk_go w a ((sub_mul_word_in_place w c m a).1.drop 1) b
        (borrow + (sub_mul_word_in_place w c m a).2)).2)

/-- add_mul_chunk, from src/mul/simple.rs: c += a * b, returning the
accumulated carry (asserted at most 1 and returned as a bool there). -/
def add_mul_chunk (w : Nat) (c a b : List Nat) : List Nat × Nat :=
  add_mul_chunk_go w a c b 0

/-- sub_mul_chunk, from src/mul/simple.rs: c -= a * b, returning the
accumulated borrow (asserted at most 1 and returned as a bool there). -/
def sub_mul_chunk (w : Nat) (c a b : List Nat) : List Nat × Nat :=
  sub_mul_chunk_go w a c b 0

/-- add_signed_mul_chunk, from src/mul/simple.rs: dispatch on the sign,
converting the chunk bool (carry non-zero) to a signed word. -/
def add_signed_mul_chunk (w : Nat) (c : List Nat) (sign : Sign) (a b : List Nat) :
    List Nat × Int :=
  match sign with
  | Sign.Positive =>
      ((add_mul_chunk w c a b).1, if (add_mul_chunk w c a b).2 ≠ 0 then 1 else 0)
  | Sign.Negative =>
      ((sub_mul_chunk w c a b).1, -(if (sub_mul_chunk w c a b).2 ≠ 0 then 1 else 0))

/-- The while loop and the final chunk of add_signed_mul, from
src/mul/simple.rs: while a.len is at least 2 * CHUNK_LEN, propagate the
pending carry at position b.len over one chunk of c, add one chunk of the
product, and advance a and c by CHUNK_LEN; the final round does the same
on the remaining slices and returns the signed carry. -/
def add_signed_mul_go (w : Nat) : Nat → List Nat → Sign → List Nat → List Nat →
    Int → List Nat × Int
  | 0, c, sign, a, b, carry_n =>
    ((add_signed_mul_chunk w
        (c.take b.length ++ (propagate_carry w (c.drop b.length) carry_n).1) sign a b).1,
     (propagate_carry w (c.drop b.length) carry_n).2 +
       (add_signed_mul_chunk w
         (c.take b.length ++ (propagate_carry w (c.drop b.length) carry_n).1) sign a b).2)
  | fuel + 1, c, sign, a, b, carry_n =>
    if 2 * CHUNK_LEN ≤ a.length then
      let n := b.length
      let p := propagate_carry w ((c.drop n).take CHUNK_LEN) carry_n
      let c1 := c.take n ++ p.1 ++ c.drop (n + CHUNK_LEN)
      let q := add_signed_mul_chunk w (c1.take (CHUNK_LEN + n)) sign (a.take CHUNK_LEN) b
      let r := add_signed_mul_go w fuel (q.1.drop CHUNK_LEN ++ c1.drop (CHUNK_LEN + n))
        sign (a.drop CHUNK_LEN) b (p.2 + q.2)
      (q.1.take CHUNK_LEN ++ r.1, r.2)
    else
      ((add_signed_mul_chunk w
          (c.take b.length ++ (propagate_carry w (c.drop b.length) carry_n).1) sign a b).1,
       (propagate_carry w (c.drop b.length) carry_n).2 +
         (add_signed_mul_chunk w
           (c.take b.length ++ (propagate_carry w (c.drop b.length) carry_n).1) sign a b).2)

/-- add_signed_mul, from src/mul/simple.rs: c += sign * a * b, carry_n
starting at 0; returns the final signed carry at position c.len. The loop
is driven by a fuel of a.length rounds, which the while condition
(a.length at least 2 * CHUNK_LEN, a shrinking by CHUNK_LEN per round) can
never exhaust. -/
def add_signed_mul (w : Nat) (c : List Nat) (sign : Sign) (a b : List Nat) :
    List Nat × Int :=
  add_signed_mul_go w a.length c sign a b 0

theorem ediv_nonpos_of_lt {t B : Int} (hB : 0 < B) (ht : t < B) : t.ediv B ≤ 0 := by
  by_contra h
  push_neg at h
  have h1 : t.emod B + B * t.ediv B = t := Int.emod_add_ediv t B
  have h2 : 0 ≤ t.emod B := Int.emod_nonneg t (by omega)
  have h3 : 1 ≤ t.ediv B := h
  nlinarith [mul_le_mul_of_nonneg_left h3 (le_of_lt hB)]

theorem pow_split (w i j : Nat) :
    (2 : Int) ^ (w * (i + j)) = 2 ^ (w * i) * 2 ^ (w * j) := by
  rw [show w * (i + j) = w * i + w * j by ring, pow_add]

theorem propagate_carry_length (w : Nat) (c : List Nat) (v : Int) :
    (propagate_carry w c v).1.length = c.length := by
  induction c generalizing v with
  | nil => rfl
  | cons x c ih => simp [propagate_carry, ih]

theorem propagate_carry_bounded (w : Nat) (c : List Nat) (v : Int) :
    ∀ x ∈ (propagate_carry w c v).1, x < 2 ^ w := by
  induction c generalizing v with
  | nil => simp [propagate_carry]
  | cons x c ih =>
      intro y hy
      simp only [propagate_carry, List.mem_cons] at hy
      rcases hy with hy | hy
      · have hBpos : (0 : Int) < 2 ^ w := by positivity
        have h1 : 0 ≤ ((x : Int) + v).emod (2 ^ w) :=
          Int.emod_nonneg _ (by positivity)
        have h2 : ((x : Int) + v).emod (2 ^ w) < 2 ^ w :=
          Int.emod_lt_of_pos _ hBpos
        have h4 : ((2 ^ w : Nat) : Int) = (2 : Int) ^ w := by push_cast; ring
        subst hy
        omega
      · exact ih _ y hy

theorem propagate_carry_val (w : Nat) (c : List Nat) (v : Int) :
    (val w (propagate_carry w c v).1 : Int) +
      2 ^ (w * c.length) * (propagate_carry w c v).2 = (val w c : Int) + v := by
  induction c generalizing v with
  | nil => simp [propagate_carry, val]
  | cons x c ih =>
      have hBne : ((2 : Int) ^ w) ≠ 0 := by positivity
      have hmod := Int.emod_add_ediv ((x : Int) + v) (2 ^ w)
      have hnn : 0 ≤ ((x : Int) + v).emod (2 ^ w) := Int.emod_nonneg _ hBne
      have hih := ih (((x : Int) + v).ediv (2 ^ w))
      simp only [propagate_carry, List.length_cons]
      push_cast [val_cons]
      rw [Int.toNat_of_nonneg hnn]
      rw [show (2 : Int) ^ (w * (c.length + 1)) = 2 ^ w * 2 ^ (w * c.length) by
        rw [show w * (c.length + 1) = w + w * c.length by ring, pow_add]]
      push_cast at hih
      linear_combination (2 : Int) ^ w * hih + hmod

theorem mul_row_nil (w : Nat) (sg : Int) (m : Nat) (c : List Nat) (k : Int) :
    mul_row w sg m c [] k = propagate_carry w c k := by
  cases c <;> rfl

theorem mul_row_length (w : Nat) (sg : Int) (m : Nat) (c a : List Nat) (k : Int) :
    (mul_row w sg m c a k).1.length = c.length := by
  induction a generalizing c k with
  | nil => simp [mul_row_nil, propagate_carry_length]
  | cons y a ih =>
      cases c with
      | nil => rfl
      | cons x c => simp [mul_row, ih]

theorem mul_row_bounded (w : Nat) (sg : Int) (m : Nat) (c a : List Nat) (k : Int) :
    ∀ x ∈ (mul_row w sg m c a k).1, x < 2 ^ w := by
  induction a generalizing c k with
  | nil =>
      intro y hy
      rw [mul_row_nil] at hy
      exact propagate_carry_bounded w c k y hy
  | cons y a ih =>
      cases c with
      | nil => simp [mul_row]
      | cons x c =>
          intro z hz
          simp only [mul_row, List.mem_cons] at hz
          rcases hz with hz | hz
          · have hBpos : (0 : Int) < 2 ^ w := by positivity
            have h1 : 0 ≤ ((x : Int) + k + sg * ((m * y : Nat) : Int)).emod (2 ^ w) :=
              Int.emod_nonneg _ (by positivity)
            have h2 : ((x : Int) + k + sg * ((m * y : Nat) : Int)).emod (2 ^ w) < 2 ^ w :=
              Int.emod_lt_of_pos _ hBpos
            have h4 : ((2 ^ w : Nat) : Int) = (2 : Int) ^ w := by push_cast; ring
            subst hz
            omega
          · exact ih _ _ z hz

theorem mul_row_val (w : Nat) (sg : Int) (m : Nat) (c a : List Nat) (k : Int)
    (hlen : a.length ≤ c.length) :
    (val w (mul_row w sg m c a k).1 : Int) +
      2 ^ (w * c.length) * (mul_row w sg m c a k).2
      = (val w c : Int) + k + sg * m * val w a := by
  induction a generalizing c k with
  | nil =>
      have h1 := propagate_carry_val w c k
      rw [mul_row_nil]
      simp only [val_nil]
      push_cast
      linarith
  | cons y a ih =>
      cases c with
      | nil => simp at hlen
      | cons x c =>
          have hBne : ((2 : Int) ^ w) ≠ 0 := by positivity
          have hmod : ((x : Int) + k + sg * ((m * y : Nat) : Int)).emod (2 ^ w)
              + 2 ^ w * ((x : Int) + k + sg * ((m * y : Nat) : Int)).ediv (2 ^ w)
              = (x : Int) + k + sg * ((m * y : Nat) : Int) :=
            Int.emod_add_ediv _ _
          have hnn : 0 ≤ ((x : Int) + k + sg * ((m * y : Nat) : Int)).emod (2 ^ w) :=
            Int.emod_nonneg _ hBne
          have hih := ih c (((x : Int) + k + sg * ((m * y : Nat) : Int)).ediv (2 ^ w))
            (by simpa using Nat.le_of_succ_le_succ hlen)
          simp only [mul_row, List.length_cons, val_cons]
          push_cast at hnn hmod hih ⊢
          rw [Int.toNat_of_nonneg hnn]
          rw [show (2 : Int) ^ (w * (c.length + 1)) = 2 ^ w * 2 ^ (w * c.length) by
            rw [show w * (c.length + 1) = w + w * c.length by ring, pow_add]]
          linear_combination (2 : Int) ^ w * hih + hmod

theorem propagate_carry_nonneg (w : Nat) (c : List Nat) (v : Int) (hv : 0 ≤ v) :
    0 ≤ (propagate_carry w c v).2 := by
  induction c generalizing v with
  | nil => simpa [propagate_carry]
  | cons x c ih =>
      simp only [propagate_carry]
      exact ih _ (Int.ediv_nonneg (by positivity) (by positivity))

theorem propagate_carry_nonpos (w : Nat) (c : List Nat) (v : Int) (hv : v ≤ 0)
    (hc : ∀ x ∈ c, x < 2 ^ w) :
    (propagate_carry w c v).2 ≤ 0 := by
  induction c generalizing v with
  | nil => simpa [propagate_carry]
  | cons x c ih =>
      simp only [propagate_carry]
      have hx : (x : Int) < 2 ^ w := by
        have h1 := hc x (by simp)
        have h3 : ((2 : Int) ^ w) = ((2 ^ w : Nat) : Int) := by push_cast; ring
        rw [h3]
        exact_mod_cast h1
      refine ih _ (ediv_nonpos_of_lt (by positivity) (by omega)) ?_
      exact fun z hz => hc z (by simp [hz])

theorem mul_row_nonneg (w m : Nat) (c a : List Nat) (k : Int) (hk : 0 ≤ k) :
    0 ≤ (mul_row w 1 m c a k).2 := by
  induction a generalizing c k with
  | nil =>
      rw [mul_row_nil]
      exact propagate_carry_nonneg w c k hk
  | cons y a ih =>
      cases c with
      | nil => simpa [mul_row]
      | cons x c =>
          simp only [mul_row]
          refine ih _ _ (Int.ediv_nonneg ?_ (by positivity))
          have : (0 : Int) ≤ ((m * y : Nat) : Int) := by positivity
          nlinarith

theorem mul_row_nonpos (w m : Nat) (c a : List Nat) (k : Int) (hk : k ≤ 0)
    (hc : ∀ x ∈ c, x < 2 ^ w) :
    (mul_row w (-1) m c a k).2 ≤ 0 := by
  induction a generalizing c k with
  | nil =>
      rw [mul_row_nil]
      exact propagate_carry_nonpos w c k hk hc
  | cons y a ih =>
      cases c with
      | nil => simpa [mul_row]
      | cons x c =>
          simp only [mul_row]
          have hx : (x : Int) < 2 ^ w := by
            have h1 := hc x (by simp)
            have h3 : ((2 : Int) ^ w) = ((2 ^ w : Nat) : Int) := by push_cast; ring
            rw [h3]
            exact_mod_cast h1
          refine ih _ _ (ediv_nonpos_of_lt (by positivity) ?_)
            (fun z hz => hc z (by simp [hz]))
          have : (0 : Int) ≤ ((m * y : Nat) : Int) := by positivity
          nlinarith

theorem add_mul_word_in_place_length (w : Nat) (c : List Nat) (m : Nat) (a : List Nat) :
    (add_mul_word_in_place w c m a).1.length = c.length :=
  mul_row_length w 1 m c a 0

theorem sub_mul_word_in_place_length (w : Nat) (c : List Nat) (m : Nat) (a : List Nat) :
    (sub_mul_word_in_place w c m a).1.length = c.length :=
  mul_row_length w (-1) m c a 0

theorem add_mul_word_in_place_bounded (w : Nat) (c : List Nat) (m : Nat) (a : List Nat) :
    ∀ x ∈ (add_mul_word_in_place w c m a).1, x < 2 ^ w :=
  mul_row_bounded w 1 m c a 0

theorem sub_mul_word_in_place_bounded (w : Nat) (c : List Nat) (m : Nat) (a : List Nat) :
    ∀ x ∈ (sub_mul_word_in_place w c m a).1, x < 2 ^ w :=
  mul_row_bounded w (-1) m c a 0

theorem add_mul_word_in_place_val (w : Nat) (c : List Nat) (m : Nat) (a : List Nat)
    (hlen : a.length ≤ c.length) :
    (val w (add_mul_word_in_place w c m a).1 : Int)
      + ((add_mul_word_in_place w c m a).2 : Int) * 2 ^ (w * c.length)
      = val w c + m * val w a := by
  have h1 := mul_row_val w 1 m c a 0 hlen
  have h2 := mul_row_nonneg w m c a 0 le_rfl
  unfold add_mul_word_in_place
  rw [Int.toNat_of_nonneg h2]
  linear_combination h1

theorem sub_mul_word_in_place_val (w : Nat) (c : List Nat) (m : Nat) (a : List Nat)
    (hlen : a.length ≤ c.length) (hc : ∀ x ∈ c, x < 2 ^ w) :
    (val w (sub_mul_word_in_place w c m a).1 : Int)
      - ((sub_mul_word_in_place w c m a).2 : Int) * 2 ^ (w * c.length)
      = val w c - m * val w a := by
  have h1 := mul_row_val w (-1) m c a 0 hlen
  have h2 := mul_row_nonpos w m c a 0 le_rfl hc
  unfold sub_mul_word_in_place
  rw [Int.toNat_of_nonneg (by omega : (0 : Int) ≤ -(mul_row w (-1) m c a 0).2)]
  linear_combination h1

theorem add_mul_chunk_go_length (w : Nat) (a b c : List Nat) (k : Nat) :
    (add_mul_chunk_go w a c b k).1.length = c.length := by
  induction b generalizing c k with
  | nil => rfl
  | cons m b ih =>
      simp only [add_mul_chunk_go]
      rw [List.length_append, List.length_take, ih, List.length_drop,
        add_mul_word_in_place_length]
      omega

theorem sub_mul_chunk_go_length (w : Nat) (a b c : List Nat) (k : Nat) :
    (sub_mul_chunk_go w a c b k).1.length = c.length := by
  induction b generalizing c k with
  | nil => rfl
  | cons m b ih =>
      simp only [sub_mul_chunk_go]
      rw [List.length_append, List.length_take, ih, List.length_drop,
        sub_mul_word_in_place_length]
      omega

theorem add_mul_chunk_go_bounded (w : Nat) (a b c : List Nat) (k : Nat)
    (hc : ∀ x ∈ c, x < 2 ^ w) :
    ∀ x ∈ (add_mul_chunk_go w a c b k).1, x < 2 ^ w := by
  induction b generalizing c k with
  | nil => exact hc
  | cons m b ih =>
      intro z hz
      simp only [add_mul_chunk_go, List.mem_append] at hz
      rcases hz with hz | hz
      · exact add_mul_word_in_place_bounded w c m a z (List.mem_of_mem_take hz)
      · exact ih _ _
          (fun y hy => add_mul_word_in_place_bounded w c m a y (List.mem_of_mem_drop hy))
          z hz

theorem sub_mul_chunk_go_bounded (w : Nat) (a b c : List Nat) (k : Nat)
    (hc : ∀ x ∈ c, x < 2 ^ w) :
    ∀ x ∈ (sub_mul_chunk_go w a c b k).1, x < 2 ^ w := by
  induction b generalizing c k with
  | nil => exact hc
  | cons m b ih =>
      intro z hz
      simp only [sub_mul_chunk_go, List.mem_append] at hz
      rcases hz with hz | hz
      · exact sub_mul_word_in_place_bounded w c m a z (List.mem_of_mem_take hz)
      · exact ih _ _
          (fun y hy => sub_mul_word_in_place_bounded w c m a y (List.mem_of_mem_drop hy))
          z hz

theorem add_mul_chunk_go_val (w : Nat) (a b c : List Nat) (k : Nat)
    (hlen : a.length + b.length ≤ c.length) :
    (val w (add_mul_chunk_go w a c b k).1 : Int)
      + ((add_mul_chunk_go w a c b k).2 : Int) * 2 ^ (w * c.length)
      = val w c + (k : Int) * 2 ^ (w * c.length) + val w a * val w b := by
  induction b generalizing c k with
  | nil =>
      simp only [add_mul_chunk_go, val_nil]
      push_cast
      ring
  | cons m b ih =>
      rcases hr : (add_mul_word_in_place w c m a).1 with _ | ⟨z, zs⟩
      · exfalso
        have hl := add_mul_word_in_place_length w c m a
        rw [hr] at hl
        simp only [List.length_nil] at hl
        simp only [List.length_cons] at hlen
        omega
      · have hlz : c.length = zs.length + 1 := by
          have hl := add_mul_word_in_place_length w c m a
          rw [hr] at hl
          simpa using hl.symm
        have hker := add_mul_word_in_place_val w c m a
          (by simp only [List.length_cons] at hlen; omega)
        rw [hr] at hker
        have hih := ih zs (k + (add_mul_word_in_place w c m a).2)
          (by simp only [List.length_cons] at hlen; omega)
        simp only [add_mul_chunk_go]
        rw [hr]
        simp only [List.take_succ_cons, List.take_zero, List.drop_succ_cons,
          List.drop_zero, List.singleton_append]
        rw [hlz] at hker ⊢
        rw [show (2 : Int) ^ (w * (zs.length + 1)) = 2 ^ w * 2 ^ (w * zs.length) by
          rw [show w * (zs.length + 1) = w + w * zs.length by ring, pow_add]] at hker ⊢
        push_cast [val_cons] at hker hih ⊢
        linear_combination hker + (2 : Int) ^ w * hih

theorem sub_mul_chunk_go_val (w : Nat) (a b c : List Nat) (k : Nat)
    (hlen : a.length + b.length ≤ c.length) (hc : ∀ x ∈ c, x < 2 ^ w) :
    (val w (sub_mul_chunk_go w a c b k).1 : Int)
      - ((sub_mul_chunk_go w a c b k).2 : Int) * 2 ^ (w * c.length)
      = val w c - (k : Int) * 2 ^ (w * c.length) - val w a * val w b := by
  induction b generalizing c k with
  | nil =>
      simp only [sub_mul_chunk_go, val_nil]
      push_cast
      ring
  | cons m b ih =>
      rcases hr : (sub_mul_word_in_place w c m a).1 with _ | ⟨z, zs⟩
      · exfalso
        have hl := sub_mul_word_in_place_length w c m a
        rw [hr] at hl
        simp only [List.length_nil] at hl
        simp only [List.length_cons] at hlen
        omega
      · have hlz : c.length = zs.length + 1 := by
          have hl := sub_mul_word_in_place_length w c m a
          rw [hr] at hl
          simpa using hl.symm
        have hker := sub_mul_word_in_place_val w c m a
          (by simp only [List.length_cons] at hlen; omega) hc
        rw [hr] at hker
        have hih := ih zs (k + (sub_mul_word_in_place w c m a).2)
          (by simp only [List.length_cons] at hlen; omega)
          (fun y hy => sub_mul_word_in_place_bounded w c m a y
            (by rw [hr]; exact List.mem_cons_of_mem z hy))
        simp only [sub_mul_chunk_go]
        rw [hr]
        simp only [List.take_succ_cons, List.take_zero, List.drop_succ_cons,
          List.drop_zero, List.singleton_append]
        rw [hlz] at hker ⊢
        rw [show (2 : Int) ^ (w * (zs.length + 1)) = 2 ^ w * 2 ^ (w * zs.length) by
          rw [show w * (zs.length + 1) = w + w * zs.length by ring, pow_add]] at hker ⊢
        push_cast [val_cons] at hker hih ⊢
        linear_combination hker + (2 : Int) ^ w * hih

theorem val_lt_int (w : Nat) (xs : List Nat) (h : ∀ x ∈ xs, x < 2 ^ w) :
    (val w xs : Int) < 2 ^ (w * xs.length) := by
  have h1 := val_lt w xs h
  exact_mod_cast h1

theorem one_le_two_pow_int (n : Nat) : (1 : Int) ≤ 2 ^ n := by
  have h1 : (0 : Int) < 2 ^ n := by positivity
  exact Int.lt_iff_add_one_le.mp h1

theorem add_mul_chunk_carry_le_one_aux (w : Nat) (c a b : List Nat)
    (hc : ∀ x ∈ c, x < 2 ^ w) (ha : ∀ x ∈ a, x < 2 ^ w) (hb : ∀ x ∈ b, x < 2 ^ w)
    (hlen : c.length = a.length + b.length) :
    (add_mul_chunk w c a b).2 ≤ 1 := by
  have hval := add_mul_chunk_go_val w a b c 0 (le_of_eq hlen.symm)
  have hC := val_lt_int w c hc
  have hA := val_lt_int w a ha
  have hB := val_lt_int w b hb
  have hOut : (0 : Int) ≤ (val w (add_mul_chunk_go w a c b 0).1 : Int) := by positivity
  have hsplit : (2 : Int) ^ (w * c.length) = 2 ^ (w * a.length) * 2 ^ (w * b.length) := by
    rw [hlen]
    exact pow_split w a.length b.length
  have hXa := one_le_two_pow_int (w * a.length)
  have hXb := one_le_two_pow_int (w * b.length)
  have hprod : (val w a : Int) * val w b
      ≤ (2 ^ (w * a.length) - 1) * (2 ^ (w * b.length) - 1) :=
    mul_le_mul (by linarith) (by linarith) (by positivity) (by linarith)
  have hexp : ((2 : Int) ^ (w * a.length) - 1) * (2 ^ (w * b.length) - 1)
      = 2 ^ (w * c.length) - 2 ^ (w * a.length) - 2 ^ (w * b.length) + 1 := by
    rw [hsplit]
    ring
  rw [hexp] at hprod
  have h2 : ((add_mul_chunk_go w a c b 0).2 : Int) * 2 ^ (w * c.length)
      ≤ 2 * 2 ^ (w * c.length) - 2 := by
    push_cast at hval
    linarith [hval, hprod, hC, hOut, hXa, hXb]
  have hXpos : (0 : Int) < 2 ^ (w * c.length) := by positivity
  by_contra hcon
  push_neg at hcon
  have h4 : (2 : Int) ≤ ((add_mul_chunk_go w a c b 0).2 : Int) := by
    unfold add_mul_chunk at hcon
    exact_mod_cast hcon
  have h5 := mul_le_mul_of_nonneg_right h4 (le_of_lt hXpos)
  linarith [h2, h5]

theorem sub_mul_chunk_carry_le_one_aux (w : Nat) (c a b : List Nat)
    (hc : ∀ x ∈ c, x < 2 ^ w) (ha : ∀ x ∈ a, x < 2 ^ w) (hb : ∀ x ∈ b, x < 2 ^ w)
    (hlen : c.length = a.length + b.length) :
    (sub_mul_chunk w c a b).2 ≤ 1 := by
  have hval := sub_mul_chunk_go_val w a b c 0 (le_of_eq hlen.symm) hc
  have hA := val_lt_int w a ha
  have hB := val_lt_int w b hb
  have hClow : (0 : Int) ≤ (val w c : Int) := by positivity
  have hOlt : (val w (sub_mul_chunk_go w a c b 0).1 : Int) < 2 ^ (w * c.length) := by
    have h1 := val_lt_int w (sub_mul_chunk_go w a c b 0).1
      (sub_mul_chunk_go_bounded w a b c 0 hc)
    rw [sub_mul_chunk_go_length w a b c 0] at h1
    exact h1
  have hsplit : (2 : Int) ^ (w * c.length) = 2 ^ (w * a.length) * 2 ^ (w * b.length) := by
    rw [hlen]
    exact pow_split w a.length b.length
  have hXa := one_le_two_pow_int (w * a.length)
  have hXb := one_le_two_pow_int (w * b.length)
  have hprod : (val w a : Int) * val w b
      ≤ (2 ^ (w * a.length) - 1) * (2 ^ (w * b.length) - 1) :=
    mul_le_mul (by linarith) (by linarith) (by positivity) (by linarith)
  have hexp : ((2 : Int) ^ (w * a.length) - 1) * (2 ^ (w * b.length) - 1)
      = 2 ^ (w * c.length) - 2 ^ (w * a.length) - 2 ^ (w * b.length) + 1 := by
    rw [hsplit]
    ring
  rw [hexp] at hprod
  have h2 : ((sub_mul_chunk_go w a c b 0).2 : Int) * 2 ^ (w * c.length)
      ≤ 2 * 2 ^ (w * c.length) - 2 := by
    push_cast at hval
    linarith [hval, hprod, hOlt, hClow, hXa, hXb]
  have hXpos : (0 : Int) < 2 ^ (w * c.length) := by positivity
  by_contra hcon
  push_neg at hcon
  have h4 : (2 : Int) ≤ ((sub_mul_chunk_go w a c b 0).2 : Int) := by
    unfold sub_mul_chunk at hcon
    exact_mod_cast hcon
  have h5 := mul_le_mul_of_nonneg_right h4 (le_of_lt hXpos)
  linarith [h2, h5]

/-- C8. Under the chunk preconditions (a.len at least b.len, c.len equal to
a.len + b.len, a.len below 2 * CHUNK_LEN, all limbs one Word wide), the
carry accumulated by add_mul_chunk and the borrow accumulated by
sub_mul_chunk over the b.len kernel rounds is at most 1, so the debug
assertion holds and the wrapper may return it as a bool. -/
theorem chunk_carry_le_one (w : Nat) (c a b : List Nat)
    (hc : ∀ x ∈ c, x < 2 ^ w) (ha : ∀ x ∈ a, x < 2 ^ w) (hb : ∀ x ∈ b, x < 2 ^ w)
    (hab : b.length ≤ a.length) (hlen : c.length = a.length + b.length)
    (hchunk : a.length < 2 * CHUNK_LEN) :
    (add_mul_chunk w c a b).2 ≤ 1 ∧ (sub_mul_chunk w c a b).2 ≤ 1 :=
  ⟨add_mul_chunk_carry_le_one_aux w c a b hc ha hb hlen,
   sub_mul_chunk_carry_le_one_aux w c a b hc ha hb hlen⟩

theorem chunk_carry_le_one_witness :
    ((∀ x ∈ ([3, 0, 0, 0] : List Nat), x < 2 ^ 4)
      ∧ (∀ x ∈ ([15, 15] : List Nat), x < 2 ^ 4)
      ∧ (∀ x ∈ ([15, 15] : List Nat), x < 2 ^ 4)
      ∧ ([15, 15] : List Nat).length ≤ ([15, 15] : List Nat).length
      ∧ ([3, 0, 0, 0] : List Nat).length
          = ([15, 15] : List Nat).length + ([15, 15] : List Nat).length
      ∧ ([15, 15] : List Nat).length < 2 * CHUNK_LEN)
    ∧ ((add_mul_chunk 4 [3, 0, 0, 0] [15, 15] [15, 15]).2 ≤ 1
      ∧ (sub_mul_chunk 4 [3, 0, 0, 0] [15, 15] [15, 15]).2 ≤ 1) :=
  ⟨by refine ⟨by decide, by decide, by decide, by decide, by decide, by decide⟩,
   chunk_carry_le_one 4 [3, 0, 0, 0] [15, 15] [15, 15]
     (by decide) (by decide) (by decide) (by decide) (by decide) (by decide)⟩

theorem add_signed_mul_chunk_length (w : Nat) (c : List Nat) (sign : Sign)
    (a b : List Nat) :
    (add_signed_mul_chunk w c sign a b).1.length = c.length := by
  cases sign with
  | Positive =>
      simp only [add_signed_mul_chunk]
      exact add_mul_chunk_go_length w a b c 0
  | Negative =>
      simp only [add_signed_mul_chunk]
      exact sub_mul_chunk_go_length w a b c 0

theorem add_signed_mul_chunk_bounded (w : Nat) (c : List Nat) (sign : Sign)
    (a b : List Nat) (hc : ∀ x ∈ c, x < 2 ^ w) :
    ∀ x ∈ (add_signed_mul_chunk w c sign a b).1, x < 2 ^ w := by
  cases sign with
  | Positive =>
      simp only [add_signed_mul_chunk]
      exact add_mul_chunk_go_bounded w a b c 0 hc
  | Negative =>
      simp only [add_signed_mul_chunk]
      exact sub_mul_chunk_go_bounded w a b c 0 hc

theorem add_signed_mul_chunk_val (w : Nat) (c : List Nat) (sign : Sign) (a b : List Nat)
    (hc : ∀ x ∈ c, x < 2 ^ w) (ha : ∀ x ∈ a, x < 2 ^ w) (hb : ∀ x ∈ b, x < 2 ^ w)
    (hlen : c.length = a.length + b.length) :
    (val w (add_signed_mul_chunk w c sign a b).1 : Int)
      + (add_signed_mul_chunk w c sign a b).2 * 2 ^ (w * c.length)
      = val w c + signValue sign * (val w a * val w b) := by
  cases sign with
  | Positive =>
      have hval := add_mul_chunk_go_val w a b c 0 (le_of_eq hlen.symm)
      have hle := add_mul_chunk_carry_le_one_aux w c a b hc ha hb hlen
      have hcast : (if (add_mul_chunk w c a b).2 ≠ 0 then (1 : Int) else 0)
          = ((add_mul_chunk w c a b).2 : Int) := by
        have h01 : (add_mul_chunk w c a b).2 = 0 ∨ (add_mul_chunk w c a b).2 = 1 := by
          omega
        rcases h01 with h | h <;> simp [h]
      simp only [add_signed_mul_chunk, signValue]
      rw [hcast]
      unfold add_mul_chunk
      push_cast at hval ⊢
      linear_combination hval
  | Negative =>
      have hval := sub_mul_chunk_go_val w a b c 0 (le_of_eq hlen.symm) hc
      have hle := sub_mul_chunk_carry_le_one_aux w c a b hc ha hb hlen
      have hcast : (if (sub_mul_chunk w c a b).2 ≠ 0 then (1 : Int) else 0)
          = ((sub_mul_chunk w c a b).2 : Int) := by
        have h01 : (sub_mul_chunk w c a b).2 = 0 ∨ (sub_mul_chunk w c a b).2 = 1 := by
          omega
        rcases h01 with h | h <;> simp [h]
      simp only [add_signed_mul_chunk, signValue]
      rw [hcast]
      unfold sub_mul_chunk
      push_cast at hval ⊢
      linear_combination hval

theorem add_signed_mul_final_val (w : Nat) (c : List Nat) (sign : Sign) (a b : List Nat)
    (k : Int)
    (hc : ∀ x ∈ c, x < 2 ^ w) (ha : ∀ x ∈ a, x < 2 ^ w) (hb : ∀ x ∈ b, x < 2 ^ w)
    (hab : b.length ≤ a.length) (hlen : c.length = a.length + b.length) :
    (val w (add_signed_mul_chunk w
        (c.take b.length ++ (propagate_carry w (c.drop b.length) k).1) sign a b).1 : Int)
      + ((propagate_carry w (c.drop b.length) k).2 +
          (add_signed_mul_chunk w
            (c.take b.length ++ (propagate_carry w (c.drop b.length) k).1) sign a b).2)
        * 2 ^ (w * c.length)
      = val w c + k * 2 ^ (w * b.length) + signValue sign * (val w a * val w b) := by
  have hn : b.length ≤ c.length := by omega
  have hdlen : (c.drop b.length).length = c.length - b.length := List.length_drop _ _
  have hp_val := propagate_carry_val w (c.drop b.length) k
  rw [hdlen] at hp_val
  have hp_len : (propagate_carry w (c.drop b.length) k).1.length
      = c.length - b.length := by
    rw [propagate_carry_length, hdlen]
  have htake_len : (c.take b.length).length = b.length := by
    rw [List.length_take]
    omega
  have hc1_len : (c.take b.length ++ (propagate_carry w (c.drop b.length) k).1).length
      = c.length := by
    rw [List.length_append, htake_len, hp_len]
    omega
  have hc1_bdd : ∀ x ∈ c.take b.length ++ (propagate_carry w (c.drop b.length) k).1,
      x < 2 ^ w := by
    intro x hx
    rcases List.mem_append.mp hx with hx | hx
    · exact hc x (List.mem_of_mem_take hx)
    · exact propagate_carry_bounded w _ k x hx
  have hq_val := add_signed_mul_chunk_val w
    (c.take b.length ++ (propagate_carry w (c.drop b.length) k).1) sign a b
    hc1_bdd ha hb (by rw [hc1_len]; exact hlen)
  rw [hc1_len] at hq_val
  have hc1val : (val w (c.take b.length ++ (propagate_carry w (c.drop b.length) k).1) : Int)
      = val w (c.take b.length)
        + 2 ^ (w * b.length) * val w (propagate_carry w (c.drop b.length) k).1 := by
    have h6 := val_append w (c.take b.length) (propagate_carry w (c.drop b.length) k).1
    rw [htake_len] at h6
    exact_mod_cast h6
  have hcval : (val w c : Int)
      = val w (c.take b.length) + 2 ^ (w * b.length) * val w (c.drop b.length) := by
    exact_mod_cast val_take_drop w b.length c hn
  have hX : (2 : Int) ^ (w * c.length)
      = 2 ^ (w * b.length) * 2 ^ (w * (c.length - b.length)) := by
    calc (2 : Int) ^ (w * c.length)
        = 2 ^ (w * (b.length + (c.length - b.length))) := by
          rw [show b.length + (c.length - b.length) = c.length by omega]
      _ = 2 ^ (w * b.length) * 2 ^ (w * (c.length - b.length)) :=
          pow_split w b.length (c.length - b.length)
  rw [hc1val, hX] at hq_val
  rw [hX, hcval]
  linear_combination hq_val + (2 : Int) ^ (w * b.length) * hp_val

theorem add_signed_mul_go_val (w : Nat) (sign : Sign) (b : List Nat) (fuel : Nat) :
    ∀ (a c : List Nat) (k : Int),
    a.length ≤ fuel →
    (∀ x ∈ a, x < 2 ^ w) → (∀ x ∈ b, x < 2 ^ w) → (∀ x ∈ c, x < 2 ^ w) →
    b.length ≤ a.length → b.length ≤ MAX_SMALLER_LEN →
    c.length = a.length + b.length →
    (val w (add_signed_mul_go w fuel c sign a b k).1 : Int)
      + (add_signed_mul_go w fuel c sign a b k).2 * 2 ^ (w * c.length)
      = val w c + k * 2 ^ (w * b.length) + signValue sign * (val w a * val w b) := by
  induction fuel with
  | zero =>
      intro a c k hfuel ha hb hc hab hlen
      exact add_signed_mul_final_val w c sign a b k hc ha hb hab
  | succ fuel ih =>
      intro a c k hfuel ha hb hc hab hmax hlen
      by_cases hcond : 2 * CHUNK_LEN ≤ a.length
      · have hK1 : 1 ≤ CHUNK_LEN := by norm_num [CHUNK_LEN]
        have hmaxK : b.length ≤ CHUNK_LEN := hmax
        simp only [add_signed_mul_go]
        rw [if_pos hcond]
        dsimp only
        have hcd_take_len : ((c.drop b.length).take CHUNK_LEN).length = CHUNK_LEN := by
          rw [List.length_take, List.length_drop]
          omega
        have hP_len : (propagate_carry w ((c.drop b.length).take CHUNK_LEN) k).1.length
            = CHUNK_LEN := by
          rw [propagate_carry_length, hcd_take_len]
        have hp_val := propagate_carry_val w ((c.drop b.length).take CHUNK_LEN) k
        rw [hcd_take_len] at hp_val
        have htn : (c.take b.length).length = b.length := by
          rw [List.length_take]
          omega
        have hfront_len :
            (c.take b.length ++ (propagate_carry w ((c.drop b.length).take CHUNK_LEN) k).1).length
              = CHUNK_LEN + b.length := by
          rw [List.length_append, htn, hP_len]
          omega
        have hC1take :
            (c.take b.length ++ (propagate_carry w ((c.drop b.length).take CHUNK_LEN) k).1
                ++ c.drop (b.length + CHUNK_LEN)).take (CHUNK_LEN + b.length)
              = c.take b.length
                ++ (propagate_carry w ((c.drop b.length).take CHUNK_LEN) k).1 :=
          List.take_left' hfront_len
        have hC1drop :
            (c.take b.length ++ (propagate_carry w ((c.drop b.length).take CHUNK_LEN) k).1
                ++ c.drop (b.length + CHUNK_LEN)).drop (CHUNK_LEN + b.length)
              = c.drop (b.length + CHUNK_LEN) :=
          List.drop_left' hfront_len
        rw [hC1take, hC1drop]
        have htakeK_len : (a.take CHUNK_LEN).length = CHUNK_LEN := by
          rw [List.length_take]
          omega
        have hfront_bdd : ∀ x ∈ c.take b.length
            ++ (propagate_carry w ((c.drop b.length).take CHUNK_LEN) k).1, x < 2 ^ w := by
          intro x hx
          rcases List.mem_append.mp hx with hx | hx
          · exact hc x (List.mem_of_mem_take hx)
          · exact propagate_carry_bounded w _ k x hx
        have hq_len : (add_signed_mul_chunk w
            (c.take b.length ++ (propagate_carry w ((c.drop b.length).take CHUNK_LEN) k).1)
            sign (a.take CHUNK_LEN) b).1.length = CHUNK_LEN + b.length := by
          rw [add_signed_mul_chunk_length, hfront_len]
        have hq_val := add_signed_mul_chunk_val w
          (c.take b.length ++ (propagate_carry w ((c.drop b.length).take CHUNK_LEN) k).1)
          sign (a.take CHUNK_LEN) b hfront_bdd
          (fun x hx => ha x (List.mem_of_mem_take hx)) hb
          (by rw [hfront_len, htakeK_len])
        rw [hfront_len] at hq_val
        have hQd_len : ((add_signed_mul_chunk w
            (c.take b.length ++ (propagate_carry w ((c.drop b.length).take CHUNK_LEN) k).1)
            sign (a.take CHUNK_LEN) b).1.drop CHUNK_LEN).length = b.length := by
          rw [List.length_drop, hq_len]
          omega
        have hc2_len : ((add_signed_mul_chunk w
            (c.take b.length ++ (propagate_carry w ((c.drop b.length).take CHUNK_LEN) k).1)
            sign (a.take CHUNK_LEN) b).1.drop CHUNK_LEN
              ++ c.drop (b.length + CHUNK_LEN)).length = c.length - CHUNK_LEN := by
          rw [List.length_append, hQd_len, List.length_drop]
          omega
        have hc2_bdd : ∀ x ∈ (add_signed_mul_chunk w
            (c.take b.length ++ (propagate_carry w ((c.drop b.length).take CHUNK_LEN) k).1)
            sign (a.take CHUNK_LEN) b).1.drop CHUNK_LEN
              ++ c.drop (b.length + CHUNK_LEN), x < 2 ^ w := by
          intro x hx
          rcases List.mem_append.mp hx with hx | hx
          · exact add_signed_mul_chunk_bounded w _ sign _ b hfront_bdd x
              (List.mem_of_mem_drop hx)
          · exact hc x (List.mem_of_mem_drop hx)
        have hr := ih (a.drop CHUNK_LEN)
          ((add_signed_mul_chunk w
            (c.take b.length ++ (propagate_carry w ((c.drop b.length).take CHUNK_LEN) k).1)
            sign (a.take CHUNK_LEN) b).1.drop CHUNK_LEN
              ++ c.drop (b.length + CHUNK_LEN))
          ((propagate_carry w ((c.drop b.length).take CHUNK_LEN) k).2
            + (add_signed_mul_chunk w
              (c.take b.length ++ (propagate_carry w ((c.drop b.length).take CHUNK_LEN) k).1)
              sign (a.take CHUNK_LEN) b).2)
          (by rw [List.length_drop]; omega)
          (fun x hx => ha x (List.mem_of_mem_drop hx)) hb hc2_bdd
          (by rw [List.length_drop]; omega) hmax
          (by rw [hc2_len, List.length_drop]; omega)
        rw [hc2_len] at hr
        have hQt_len : ((add_signed_mul_chunk w
            (c.take b.length ++ (propagate_carry w ((c.drop b.length).take CHUNK_LEN) k).1)
            sign (a.take CHUNK_LEN) b).1.take CHUNK_LEN).length = CHUNK_LEN := by
          rw [List.length_take, hq_len]
          omega
        have hout := val_append w ((add_signed_mul_chunk w
            (c.take b.length ++ (propagate_carry w ((c.drop b.length).take CHUNK_LEN) k).1)
            sign (a.take CHUNK_LEN) b).1.take CHUNK_LEN)
          (add_signed_mul_go w fuel ((add_signed_mul_chunk w
            (c.take b.length ++ (propagate_carry w ((c.drop b.length).take CHUNK_LEN) k).1)
            sign (a.take CHUNK_LEN) b).1.drop CHUNK_LEN
              ++ c.drop (b.length + CHUNK_LEN)) sign (a.drop CHUNK_LEN) b
            ((propagate_carry w ((c.drop b.length).take CHUNK_LEN) k).2
              + (add_signed_mul_chunk w
                (c.take b.length ++ (propagate_carry w ((c.drop b.length).take CHUNK_LEN) k).1)
                sign (a.take CHUNK_LEN) b).2)).1
        rw [hQt_len] at hout
        have hQsplit := val_take_drop w CHUNK_LEN (add_signed_mul_chunk w
            (c.take b.length ++ (propagate_carry w ((c.drop b.length).take CHUNK_LEN) k).1)
            sign (a.take CHUNK_LEN) b).1 (by rw [hq_len]; omega)
        have hc2split := val_append w ((add_signed_mul_chunk w
            (c.take b.length ++ (propagate_carry w ((c.drop b.length).take CHUNK_LEN) k).1)
            sign (a.take CHUNK_LEN) b).1.drop CHUNK_LEN) (c.drop (b.length + CHUNK_LEN))
        rw [hQd_len] at hc2split
        have hfrontsplit := val_append w (c.take b.length)
          (propagate_carry w ((c.drop b.length).take CHUNK_LEN) k).1
        rw [htn] at hfrontsplit
        have hcsplit := val_take_drop w b.length c (by omega)
        have hcdsplit := val_take_drop w CHUNK_LEN (c.drop b.length)
          (by rw [List.length_drop]; omega)
        rw [List.drop_drop] at hcdsplit
        have hasplit := val_take_drop w CHUNK_LEN a (by omega)
        have hE1 : (2 : Int) ^ (w * c.length)
            = 2 ^ (w * b.length) * (2 ^ (w * CHUNK_LEN)
              * 2 ^ (w * (c.length - CHUNK_LEN - b.length))) := by
          rw [← pow_split w CHUNK_LEN (c.length - CHUNK_LEN - b.length),
            ← pow_split w b.length (CHUNK_LEN + (c.length - CHUNK_LEN - b.length))]
          rw [show b.length + (CHUNK_LEN + (c.length - CHUNK_LEN - b.length)) = c.length
            by omega]
        have hE2 : (2 : Int) ^ (w * (c.length - CHUNK_LEN))
            = 2 ^ (w * b.length) * 2 ^ (w * (c.length - CHUNK_LEN - b.length)) := by
          rw [← pow_split w b.length (c.length - CHUNK_LEN - b.length)]
          rw [show b.length + (c.length - CHUNK_LEN - b.length) = c.length - CHUNK_LEN
            by omega]
        have hE3 : (2 : Int) ^ (w * (CHUNK_LEN + b.length))
            = 2 ^ (w * CHUNK_LEN) * 2 ^ (w * b.length) :=
          pow_split w CHUNK_LEN b.length
        rw [hE2] at hr
        rw [hE3] at hq_val
        push_cast [hout, hc2split, hfrontsplit, hQsplit] at hr hq_val ⊢
        rw [hE1]
        push_cast [hcsplit, hcdsplit, hasplit]
        linear_combination hq_val + (2 : Int) ^ (w * CHUNK_LEN) * hr
          + (2 : Int) ^ (w * b.length) * hp_val
      · simp only [add_signed_mul_go]
        rw [if_neg hcond]
        exact add_signed_mul_final_val w c sign a b k hc ha hb hab hlen

/-- C1. Kernel correctness of the simple multiplication: for word slices a,
b, c with a.len at least b.len, c.len = a.len + b.len and b.len at most
1024 (= MAX_SMALLER_LEN), and either sign, add_signed_mul returns a signed
carry k with value(c_after) + k * 2 ^ (WORD_BITS * (A + B)) equal to
value(c_before) + sign * value(a) * value(b). -/
theorem add_signed_mul_correct (w : Nat) (c : List Nat) (sign : Sign) (a b : List Nat)
    (ha : ∀ x ∈ a, x < 2 ^ w) (hb : ∀ x ∈ b, x < 2 ^ w) (hc : ∀ x ∈ c, x < 2 ^ w)
    (hab : b.length ≤ a.length) (hlen : c.length = a.length + b.length)
    (hmax : b.length ≤ 1024) :
    (val w (add_signed_mul w c sign a b).1 : Int)
      + (add_signed_mul w c sign a b).2 * 2 ^ (w * (a.length + b.length))
      = val w c + signValue sign * (val w a * val w b) := by
  have h := add_signed_mul_go_val w sign b a.length a c 0 le_rfl ha hb hc hab
    (by simpa [MAX_SMALLER_LEN, CHUNK_LEN] using hmax) hlen
  unfold add_signed_mul
  rw [← hlen]
  linear_combination h

theorem add_signed_mul_correct_witness :
    ((∀ x ∈ ([3, 2] : List Nat), x < 2 ^ 4) ∧ (∀ x ∈ ([5] : List Nat), x < 2 ^ 4)
      ∧ (∀ x ∈ ([7, 9, 0] : List Nat), x < 2 ^ 4)
      ∧ ([5] : List Nat).length ≤ ([3, 2] : List Nat).length
      ∧ ([7, 9, 0] : List Nat).length
          = ([3, 2] : List Nat).length + ([5] : List Nat).length
      ∧ ([5] : List Nat).length ≤ 1024)
    ∧ (val 4 (add_signed_mul 4 [7, 9, 0] Sign.Negative [3, 2] [5]).1 : Int)
        + (add_signed_mul 4 [7, 9, 0] Sign.Negative [3, 2] [5]).2
          * 2 ^ (4 * (([3, 2] : List Nat).length + ([5] : List Nat).length))
        = val 4 ([7, 9, 0] : List Nat)
          + signValue Sign.Negative * (val 4 ([3, 2] : List Nat) * val 4 ([5] : List Nat)) :=
  ⟨⟨by decide, by decide, by decide, by decide, by decide, by decide⟩,
   add_signed_mul_correct 4 [7, 9, 0] Sign.Negative [3, 2] [5] (by decide) (by decide)
     (by decide) (by decide) (by decide) (by decide)⟩

end Rsdtypes
